import Mathlib

/-!
# hello.cpp: `get_some_number` and `fill_array`

Shallow embedding of `src/test_envs/lsp_clangd_cpp_1/src/hello.cpp`.

* `std::vector<int>` is a `List Int`; `array.size()` is `List.length`.
* `int` is a 32-bit two's-complement integer: the counter is an `Int` and
  `counter++` is reduced into `[INT_MIN, INT_MAX]` by `wrapInt32`.  C++ leaves an
  overflowing signed increment undefined; the reduction is what the hardware
  does, and `counter_no_overflow` states when no increment overflows.
* `std::size_t i` is a `Nat`.  The loop only executes `++i` when
  `i < array.size()`, so the increment never leaves the range of `size_t`
  (`size_t_increment_exact`).
* `array[i] = counter` is a checked store: it yields `none` when the index is
  outside the vector.
* The `for` loop is run with fuel; `runLoop` returns the list of states met at
  the head of each executed iteration together with the outcome.
-/

namespace Hello

/-- Largest value of a 32-bit `int`. -/
def INT_MAX : Int := 2147483647

/-- Smallest value of a 32-bit `int`. -/
def INT_MIN : Int := -2147483648

/-- Number of values of `std::size_t` (64 bits). -/
def SIZE_MOD : Nat := 18446744073709551616

/-- Reduction of a mathematical integer to a 32-bit two's-complement `int`. -/
def wrapInt32 (x : Int) : Int := (x + 2147483648) % 4294967296 - 2147483648

/-- `int get_some_number() { return 4; }` -/
def get_some_number (_ : Unit) : Int := 4

/-- Local variables of `fill_array` at the head of the loop. -/
structure LoopState where
  array : List Int
  counter : Int
  i : Nat
deriving DecidableEq, Repr

/-- How a run of the loop ends. -/
inductive Outcome where
  | finished (s : LoopState)
  | outOfBounds
  | outOfFuel
deriving DecidableEq, Repr

/-- Checked `array[i] = value`. -/
def store (array : List Int) (i : Nat) (value : Int) : Option (List Int) :=
  if i < array.length then some (array.set i value) else none

/-- One pass through the loop: `array[i] = counter; counter++;` then `++i`. -/
def loopBody (s : LoopState) : Option LoopState :=
  match store s.array s.i s.counter with
  | none => none
  | some array' =>
    some { array := array', counter := wrapInt32 (s.counter + 1), i := s.i + 1 }

/-- `for (...; i < array.size(); ++i) { ... }` from the state `s`: the states at
the head of every executed iteration, and the outcome. -/
def runLoop : Nat → LoopState → List LoopState × Outcome
  | 0, s =>
    if s.i < s.array.length then ([], Outcome.outOfFuel) else ([], Outcome.finished s)
  | fuel + 1, s =>
    if s.i < s.array.length then
      match loopBody s with
      | none => ([s], Outcome.outOfBounds)
      | some s' => (s :: (runLoop fuel s').1, (runLoop fuel s').2)
    else ([], Outcome.finished s)

/-- State on entry to the loop: `int counter = 0; std::size_t i = 0`. -/
def initState (array : List Int) : LoopState :=
  { array := array, counter := 0, i := 0 }

/-- States at the head of each iteration of `fill_array(array)`. -/
def iterations (array : List Int) : List LoopState :=
  (runLoop array.length (initState array)).1

/-- `void fill_array(std::vector<int> &array)`: the vector after the call. -/
def fill_array (array : List Int) : Option (List Int) :=
  match (runLoop array.length (initState array)).2 with
  | Outcome.finished s => some s.array
  | _ => none

/-- Invariant at the head of the loop, relative to the vector `a0` passed in. -/
def Inv (a0 : List Int) (s : LoopState) : Prop :=
  s.array.length = a0.length ∧ s.i ≤ a0.length ∧ s.counter = wrapInt32 (s.i : Int) ∧
  (∀ j, j < s.i → s.array[j]? = some (wrapInt32 (j : Int))) ∧
  (∀ j, s.i ≤ j → s.array[j]? = a0[j]?)

/-! ## Runs on small inputs -/

theorem fill_array_three : fill_array [9, 9, 9] = some [0, 1, 2] := by decide

theorem iterations_two :
    iterations [5, 6] =
      [{ array := [5, 6], counter := 0, i := 0 }, { array := [0, 6], counter := 1, i := 1 }] := by
  decide

theorem runLoop_short_of_fuel : (runLoop 1 (initState [5, 6])).2 = Outcome.outOfFuel := by
  decide

theorem store_outside : store [5, 6] 2 0 = none := by decide

theorem wrapInt32_past_max : wrapInt32 (INT_MAX + 1) = INT_MIN := by decide

/-! ## Arithmetic of the 32-bit counter -/

theorem wrapInt32_exact (x : Int) (hlo : INT_MIN ≤ x) (hhi : x ≤ INT_MAX) :
    wrapInt32 x = x := by
  unfold INT_MIN at hlo
  unfold INT_MAX at hhi
  unfold wrapInt32
  omega

theorem wrapInt32_succ (x : Int) : wrapInt32 (wrapInt32 x + 1) = wrapInt32 (x + 1) := by
  unfold wrapInt32
  omega

theorem wrapInt32_index (n : Nat) (h : (n : Int) ≤ INT_MAX) : wrapInt32 (n : Int) = (n : Int) :=
  wrapInt32_exact _ (by unfold INT_MIN; omega) h

/-! ## The loop invariant -/

theorem inv_init (a0 : List Int) : Inv a0 (initState a0) := by
  refine ⟨rfl, Nat.zero_le _, ?_, ?_, ?_⟩
  · show (0 : Int) = wrapInt32 ((0 : Nat) : Int)
    decide
  · intro j hj
    exact absurd hj (Nat.not_lt_zero j)
  · intro j _
    rfl

theorem loopBody_eq (s : LoopState) (h : s.i < s.array.length) :
    loopBody s = some
      { array := s.array.set s.i s.counter, counter := wrapInt32 (s.counter + 1), i := s.i + 1 } := by
  simp [loopBody, store, h]

theorem inv_step (a0 : List Int) (s : LoopState) (hinv : Inv a0 s) (h : s.i < s.array.length) :
    Inv a0 { array := s.array.set s.i s.counter, counter := wrapInt32 (s.counter + 1),
             i := s.i + 1 } := by
  obtain ⟨hlen, _, hctr, hlow, hhigh⟩ := hinv
  refine ⟨?_, ?_, ?_, ?_, ?_⟩
  · simp [hlen]
  · show s.i + 1 ≤ a0.length
    omega
  · show wrapInt32 (s.counter + 1) = wrapInt32 ((s.i + 1 : Nat) : Int)
    rw [hctr, wrapInt32_succ]
    push_cast
    rfl
  · intro j hj
    show (s.array.set s.i s.counter)[j]? = some (wrapInt32 (j : Int))
    by_cases hji : s.i = j
    · subst hji
      rw [List.getElem?_set_self h, hctr]
    · rw [List.getElem?_set_ne hji]
      exact hlow j (by
        have : j < s.i + 1 := hj
        omega)
  · intro j hj
    show (s.array.set s.i s.counter)[j]? = a0[j]?
    have hj' : s.i + 1 ≤ j := hj
    rw [List.getElem?_set_ne (by omega)]
    exact hhigh j (by omega)

/-- With enough fuel the loop started in a state satisfying the invariant runs to
completion; every iteration starts in a state satisfying the invariant with the
guard true, the iterations have the indices `s.i, s.i + 1, ..., size - 1`, and the
final state satisfies the invariant with `i = size`. -/
theorem runLoop_spec (a0 : List Int) :
    ∀ (fuel : Nat) (s : LoopState), Inv a0 s → a0.length - s.i ≤ fuel →
      (∀ t ∈ (runLoop fuel s).1, Inv a0 t ∧ t.i < t.array.length) ∧
      (runLoop fuel s).1.map LoopState.i = List.range' s.i (a0.length - s.i) ∧
      ∃ f, (runLoop fuel s).2 = Outcome.finished f ∧ Inv a0 f ∧ f.i = a0.length := by
  intro fuel
  induction fuel with
  | zero =>
    intro s hinv hfuel
    have hi : s.i = a0.length := by
      have := hinv.2.1
      omega
    have hg : ¬ s.i < s.array.length := by
      rw [hinv.1]
      omega
    simp only [runLoop, hg, if_false]
    refine ⟨by simp, by simp [hi], s, rfl, hinv, hi⟩
  | succ fuel ih =>
    intro s hinv hfuel
    by_cases hg : s.i < s.array.length
    · have hlt : s.i < a0.length := by
        rw [← hinv.1]
        exact hg
      have hrun : runLoop (fuel + 1) s =
          (s :: (runLoop fuel { array := s.array.set s.i s.counter,
                                counter := wrapInt32 (s.counter + 1), i := s.i + 1 }).1,
           (runLoop fuel { array := s.array.set s.i s.counter,
                           counter := wrapInt32 (s.counter + 1), i := s.i + 1 }).2) := by
        simp only [runLoop, hg, if_true, loopBody_eq s hg]
      obtain ⟨h1, h2, h3⟩ := ih _ (inv_step a0 s hinv hg) (by
        show a0.length - (s.i + 1) ≤ fuel
        omega)
      rw [hrun]
      refine ⟨?_, ?_, h3⟩
      · intro t ht
        rcases List.mem_cons.mp ht with rfl | ht
        · exact ⟨hinv, hg⟩
        · exact h1 t ht
      · have hcount : a0.length - s.i = (a0.length - (s.i + 1)) + 1 := by omega
        rw [hcount, List.range'_succ, List.map_cons, h2]
    · have hi : s.i = a0.length := by
        have h1 := hinv.1
        have h2 := hinv.2.1
        omega
      simp only [runLoop, hg, if_false]
      refine ⟨by simp, by simp [hi], s, rfl, hinv, hi⟩

/-- Once a run does not run out of fuel, more fuel leaves it unchanged. -/
theorem runLoop_more_fuel :
    ∀ (fuel : Nat) (s : LoopState), (runLoop fuel s).2 ≠ Outcome.outOfFuel →
      ∀ extra : Nat, runLoop (fuel + extra) s = runLoop fuel s := by
  intro fuel
  induction fuel with
  | zero =>
    intro s hne extra
    by_cases hg : s.i < s.array.length
    · simp [runLoop, hg] at hne
    · cases extra with
      | zero => rfl
      | succ e => simp [runLoop, hg]
  | succ fuel ih =>
    intro s hne extra
    have hshift : fuel + 1 + extra = (fuel + extra) + 1 := by omega
    rw [hshift]
    by_cases hg : s.i < s.array.length
    · simp only [runLoop, hg, if_true, loopBody_eq s hg] at hne ⊢
      rw [ih _ hne extra]
    · simp [runLoop, hg]

/-- The loop of `fill_array(v)`, run with at least `size` units of fuel. -/
theorem runLoop_init (v : List Int) (extra : Nat) :
    (∀ t ∈ (runLoop (v.length + extra) (initState v)).1, Inv v t ∧ t.i < t.array.length) ∧
    (runLoop (v.length + extra) (initState v)).1.map LoopState.i = List.range v.length ∧
    ∃ f, (runLoop (v.length + extra) (initState v)).2 = Outcome.finished f ∧
      Inv v f ∧ f.i = v.length := by
  have h := runLoop_spec v (v.length + extra) (initState v) (inv_init v) (by
    show v.length - 0 ≤ v.length + extra
    omega)
  have hr : List.range' (initState v).i (v.length - (initState v).i) = List.range v.length := by
    show List.range' 0 (v.length - 0) = List.range v.length
    rw [Nat.sub_zero, List.range_eq_range']
  rw [hr] at h
  exact h

theorem iterations_spec (v : List Int) :
    (∀ t ∈ iterations v, Inv v t ∧ t.i < t.array.length) ∧
    (iterations v).map LoopState.i = List.range v.length :=
  ⟨(runLoop_init v 0).1, (runLoop_init v 0).2.1⟩

/-- Every index below `size` is the index of some iteration. -/
theorem iterations_at (v : List Int) (k : Nat) (hk : k < v.length) :
    ∃ s ∈ iterations v, s.i = k ∧ Inv v s := by
  have hmem : k ∈ (iterations v).map LoopState.i := by
    rw [(iterations_spec v).2]
    exact List.mem_range.mpr hk
  obtain ⟨s, hs, hsi⟩ := List.mem_map.mp hmem
  exact ⟨s, hs, hsi, ((iterations_spec v).1 s hs).1⟩

/-- Closed form of `fill_array`: position `j` receives `j` reduced to 32 bits. -/
theorem fill_array_eq (v : List Int) :
    fill_array v = some ((List.range v.length).map (fun j : Nat => wrapInt32 (j : Int))) := by
  obtain ⟨f, hf, hinv, hfi⟩ := (runLoop_init v 0).2.2
  have hf' : (runLoop v.length (initState v)).2 = Outcome.finished f := hf
  have harr : f.array = (List.range v.length).map (fun j : Nat => wrapInt32 (j : Int)) := by
    apply List.ext_getElem?
    intro j
    by_cases hj : j < v.length
    · rw [hinv.2.2.2.1 j (by omega), List.getElem?_map, List.getElem?_range hj]
      rfl
    · rw [List.getElem?_eq_none (by
          rw [hinv.1]
          omega),
        List.getElem?_eq_none (by
          rw [List.length_map, List.length_range]
          omega)]
  unfold fill_array
  rw [hf']
  show some f.array = _
  rw [harr]

/-- The increment `++i` of the `size_t` index never wraps. -/
theorem size_t_increment_exact (v : List Int) (hv : v.length < SIZE_MOD)
    (s : LoopState) (hs : s ∈ iterations v) : (s.i + 1) % SIZE_MOD = s.i + 1 := by
  obtain ⟨hinv, hg⟩ := (iterations_spec v).1 s hs
  have h1 := hinv.1
  exact Nat.mod_eq_of_lt (by omega)

/-- Below `INT_MAX` the reduced indices are the indices themselves. -/
theorem map_wrapInt32_range (n : Nat) (h : (n : Int) ≤ INT_MAX + 1) :
    (List.range n).map (fun j : Nat => wrapInt32 (j : Int)) =
      (List.range n).map (fun j : Nat => (j : Int)) := by
  apply List.map_congr_left
  intro j hj
  have hjn : j < n := List.mem_range.mp hj
  apply wrapInt32_index
  have : (j : Int) < (n : Int) := Int.ofNat_lt.mpr hjn
  omega

/-- For a length of at most `INT_MAX` the closed form has no reduction left. -/
theorem fill_array_exact (v : List Int) (h : (v.length : Int) ≤ INT_MAX) :
    fill_array v = some ((List.range v.length).map (fun i : Nat => (i : Int))) := by
  rw [fill_array_eq, map_wrapInt32_range v.length (by omega)]

/-! ## The claims -/

/-- C2: `get_some_number()` returns the integer 4 on every call; it has no input
and no state to read. -/
theorem get_some_number_eq_four (u : Unit) : get_some_number u = 4 := rfl

/-- C1 (amended): for every vector `v` of length `N ≤ INT_MAX = 2^31 - 1`, the call
`fill_array(v)` completes and leaves a vector of length `N` whose element at each
index `i < N` equals `i`, i.e. the vector is exactly `0, 1, ..., N-1` in order. -/
theorem fill_array_values (v : List Int) (h : (v.length : Int) ≤ INT_MAX) :
    ∃ r, fill_array v = some r ∧ r.length = v.length ∧
      (∀ i, i < v.length → r[i]? = some (i : Int)) ∧
      r = (List.range v.length).map (fun i : Nat => (i : Int)) := by
  refine ⟨(List.range v.length).map (fun i : Nat => (i : Int)), ?_, ?_, ?_, rfl⟩
  · rw [fill_array_eq, map_wrapInt32_range v.length (by omega)]
  · rw [List.length_map, List.length_range]
  · intro i hi
    rw [List.getElem?_map, List.getElem?_range hi]
    rfl

theorem fill_array_values_witness :
    ((([7, 7, 7] : List Int).length : Nat) : Int) ≤ INT_MAX ∧
    ∃ r, fill_array [7, 7, 7] = some r ∧ r.length = ([7, 7, 7] : List Int).length ∧
      (∀ i, i < ([7, 7, 7] : List Int).length → r[i]? = some (i : Int)) ∧
      r = (List.range ([7, 7, 7] : List Int).length).map (fun i : Nat => (i : Int)) :=
  ⟨by decide, fill_array_values [7, 7, 7] (by decide)⟩

/-- C1 as stated fails: on a vector of `2^31 + 1` elements the call completes, but
the element at index `2^31` is `-2^31`, so not every element equals its index. -/
theorem fill_array_values_counterexample :
    (∃ r, fill_array (List.replicate 2147483649 (0 : Int)) = some r ∧
      r[2147483648]? = some (-2147483648)) ∧
    ¬ (∃ r, fill_array (List.replicate 2147483649 (0 : Int)) = some r ∧
      ∀ i, i < (List.replicate 2147483649 (0 : Int)).length → r[i]? = some (i : Int)) := by
  have hval : ((List.range 2147483649).map (fun j : Nat => wrapInt32 (j : Int)))[2147483648]? =
      some (-2147483648) := by
    rw [List.getElem?_map, List.getElem?_range (by decide)]
    show some (wrapInt32 ((2147483648 : Nat) : Int)) = some (-2147483648)
    decide
  have hfill := fill_array_eq (List.replicate 2147483649 (0 : Int))
  rw [List.length_replicate] at hfill
  refine ⟨⟨_, hfill, hval⟩, ?_⟩
  rintro ⟨r, hr, hall⟩
  rw [hfill] at hr
  have hr' := Option.some.inj hr
  have h1 := hall 2147483648 (by
    rw [List.length_replicate]
    decide)
  rw [← hr', hval] at h1
  exact absurd (Option.some.inj h1) (by decide)

/-- C3: `fill_array` never changes the length of its argument: for every vector `v`
the call completes with a vector of the length `v` had at call time, the vector has
that length at the head of every iteration too, and an empty vector stays empty. -/
theorem fill_array_length (v : List Int) :
    (∃ r, fill_array v = some r ∧ r.length = v.length) ∧
    (∀ s ∈ iterations v, s.array.length = v.length) ∧
    fill_array [] = some [] := by
  refine ⟨⟨_, fill_array_eq v, ?_⟩, ?_, by decide⟩
  · rw [List.length_map, List.length_range]
  · intro s hs
    exact ((iterations_spec v).1 s hs).1.1

/-- C4: `fill_array` has no failure mode: for every vector `v` (the empty one
included) and every amount of fuel of at least `size(v)`, the loop finishes,
neither out of bounds nor out of fuel, after exactly `size(v)` iterations, with
the same result whatever the surplus of fuel; every iteration starts with
`i < size(v)`, so its checked store `array[i] = counter` succeeds. -/
theorem fill_array_no_failure (v : List Int) (extra : Nat) :
    (∃ f, (runLoop (v.length + extra) (initState v)).2 = Outcome.finished f) ∧
    runLoop (v.length + extra) (initState v) = runLoop v.length (initState v) ∧
    (runLoop (v.length + extra) (initState v)).1.length = v.length ∧
    (∀ s ∈ (runLoop (v.length + extra) (initState v)).1,
      s.i < s.array.length ∧ s.array.length = v.length ∧
      store s.array s.i s.counter = some (s.array.set s.i s.counter) ∧
      (loopBody s).isSome = true) ∧
    (fill_array v).isSome = true := by
  obtain ⟨hall, hidx, f, hf, _, _⟩ := runLoop_init v extra
  refine ⟨⟨f, hf⟩, ?_, ?_, ?_, ?_⟩
  · apply runLoop_more_fuel
    obtain ⟨g, hg, _, _⟩ := (runLoop_init v 0).2.2
    have hg' : (runLoop v.length (initState v)).2 = Outcome.finished g := hg
    rw [hg']
    exact fun hcontra => Outcome.noConfusion hcontra
  · have hlen := congrArg List.length hidx
    rw [List.length_map, List.length_range] at hlen
    exact hlen
  · intro s hs
    obtain ⟨hinv, hg⟩ := hall s hs
    refine ⟨hg, hinv.1, ?_, ?_⟩
    · simp [store, hg]
    · rw [loopBody_eq s hg]
      rfl
  · rw [fill_array_eq]
    rfl

/-- C5: the result of `fill_array` depends only on the length of its argument:
vectors `v` and `w` of equal length give equal results, and the call is idempotent
(filling the result of `fill_array(v)` again gives that same vector). -/
theorem fill_array_depends_on_length (v w : List Int) (h : v.length = w.length) :
    fill_array v = fill_array w ∧ (fill_array v).isSome = true ∧
    (fill_array v).bind fill_array = fill_array v := by
  refine ⟨?_, ?_, ?_⟩
  · rw [fill_array_eq v, fill_array_eq w, h]
  · rw [fill_array_eq]
    rfl
  · rw [fill_array_eq v, Option.some_bind, fill_array_eq, List.length_map, List.length_range]

theorem fill_array_depends_on_length_witness :
    ([5, -3, 8] : List Int).length = ([0, 0, 0] : List Int).length ∧
    fill_array [5, -3, 8] = fill_array [0, 0, 0] ∧ (fill_array [5, -3, 8]).isSome = true ∧
    (fill_array [5, -3, 8]).bind fill_array = fill_array [5, -3, 8] :=
  ⟨by decide, fill_array_depends_on_length [5, -3, 8] [0, 0, 0] (by decide)⟩

/-- C6: with the counter a 32-bit signed `int`, for every vector of length
`N ≤ 2^31 - 1` the counter equals the index at every iteration, lies in
`[0, 2^31 - 1]` before and after every `counter++` (so no increment wraps), ends
at `N`, and the value stored at index `i` is exactly `i`; the bound is tight: at
`N = 2^31` the last iteration executes `counter++` with `counter = INT_MAX`. -/
theorem counter_no_overflow (v : List Int) :
    ((v.length : Int) ≤ INT_MAX →
      (∀ s ∈ iterations v, s.counter = (s.i : Int) ∧ 0 ≤ s.counter ∧ s.counter ≤ INT_MAX ∧
        0 ≤ s.counter + 1 ∧ s.counter + 1 ≤ INT_MAX ∧
        wrapInt32 (s.counter + 1) = s.counter + 1) ∧
      (∃ f, (runLoop v.length (initState v)).2 = Outcome.finished f ∧
        f.counter = (v.length : Int)) ∧
      (∃ r, fill_array v = some r ∧ ∀ i, i < v.length → r[i]? = some (i : Int))) ∧
    ((v.length : Int) = INT_MAX + 1 →
      ∃ s ∈ iterations v, s.i + 1 = v.length ∧ s.counter = INT_MAX ∧
        INT_MAX < s.counter + 1 ∧ wrapInt32 (s.counter + 1) = INT_MIN) := by
  constructor
  · intro h
    refine ⟨?_, ?_, ?_⟩
    · intro s hs
      obtain ⟨hinv, hg⟩ := (iterations_spec v).1 s hs
      have hlt : (s.i : Int) < (v.length : Int) := by
        rw [← hinv.1]
        exact Int.ofNat_lt.mpr hg
      have hc : s.counter = (s.i : Int) := by
        rw [hinv.2.2.1]
        exact wrapInt32_index s.i (by omega)
      have h0 : (0 : Int) ≤ (s.i : Int) := Int.ofNat_nonneg _
      refine ⟨hc, by omega, by omega, by omega, by omega, ?_⟩
      apply wrapInt32_exact
      · unfold INT_MIN
        omega
      · omega
    · obtain ⟨f, hf, hinv, hfi⟩ := (runLoop_init v 0).2.2
      refine ⟨f, hf, ?_⟩
      rw [hinv.2.2.1, hfi]
      exact wrapInt32_index v.length h
    · refine ⟨_, fill_array_exact v h, ?_⟩
      intro i hi
      rw [List.getElem?_map, List.getElem?_range hi]
      rfl
  · intro h
    have hpos : 0 < v.length := by
      unfold INT_MAX at h
      omega
    obtain ⟨s, hs, hsi, hinv⟩ := iterations_at v (v.length - 1) (by omega)
    have hsi' : (s.i : Int) = INT_MAX := by
      rw [hsi]
      omega
    have hc : s.counter = INT_MAX := by
      rw [hinv.2.2.1, hsi']
      decide
    refine ⟨s, hs, by omega, hc, by omega, ?_⟩
    rw [hc]
    decide

theorem counter_no_overflow_witness :
    ((∀ s ∈ iterations [7, 7, 7], s.counter = (s.i : Int) ∧ 0 ≤ s.counter ∧
        s.counter ≤ INT_MAX ∧ 0 ≤ s.counter + 1 ∧ s.counter + 1 ≤ INT_MAX ∧
        wrapInt32 (s.counter + 1) = s.counter + 1) ∧
      (∃ f, (runLoop ([7, 7, 7] : List Int).length (initState [7, 7, 7])).2 =
          Outcome.finished f ∧ f.counter = (([7, 7, 7] : List Int).length : Int)) ∧
      (∃ r, fill_array [7, 7, 7] = some r ∧
        ∀ i, i < ([7, 7, 7] : List Int).length → r[i]? = some (i : Int))) ∧
    (∃ s ∈ iterations (List.replicate 2147483648 (0 : Int)),
      s.i + 1 = (List.replicate 2147483648 (0 : Int)).length ∧ s.counter = INT_MAX ∧
        INT_MAX < s.counter + 1 ∧ wrapInt32 (s.counter + 1) = INT_MIN) :=
  ⟨(counter_no_overflow [7, 7, 7]).1 (by decide),
   (counter_no_overflow (List.replicate 2147483648 (0 : Int))).2 (by
      rw [List.length_replicate]
      decide)⟩

/-- C7 (amended): the iterations of `fill_array(v)` have the indices
`0, 1, ..., N-1` in increasing order, and at the start of each iteration whose
index `i` is at most `INT_MAX = 2^31 - 1` the counter equals `i`, every element at
an index below `i` equals its own index, and every element at an index `≥ i` still
holds its original value; the iteration then stores the counter at index `i`. -/
theorem loop_invariant (v : List Int) :
    (iterations v).map LoopState.i = List.range v.length ∧
    ∀ s ∈ iterations v, (s.i : Int) ≤ INT_MAX →
      s.i < v.length ∧ s.array.length = v.length ∧
      s.counter = (s.i : Int) ∧
      (∀ j, j < s.i → s.array[j]? = some (j : Int)) ∧
      (∀ j, s.i ≤ j → s.array[j]? = v[j]?) ∧
      loopBody s = some { array := s.array.set s.i (s.i : Int),
                          counter := wrapInt32 ((s.i : Int) + 1), i := s.i + 1 } := by
  refine ⟨(iterations_spec v).2, ?_⟩
  intro s hs hi
  obtain ⟨hinv, hg⟩ := (iterations_spec v).1 s hs
  have hc : s.counter = (s.i : Int) := by
    rw [hinv.2.2.1]
    exact wrapInt32_index s.i hi
  refine ⟨?_, hinv.1, hc, ?_, hinv.2.2.2.2, ?_⟩
  · rw [← hinv.1]
    exact hg
  · intro j hj
    rw [hinv.2.2.2.1 j hj]
    have : (j : Int) < (s.i : Int) := Int.ofNat_lt.mpr hj
    rw [wrapInt32_index j (by omega)]
  · rw [loopBody_eq s hg, hc]

theorem loop_invariant_witness :
    (iterations [5, 6, 7]).map LoopState.i = List.range ([5, 6, 7] : List Int).length ∧
    ({ array := [0, 6, 7], counter := 1, i := 1 } : LoopState) ∈ iterations [5, 6, 7] ∧
    ((1 : Nat) : Int) ≤ INT_MAX ∧
    (1 : Nat) < ([5, 6, 7] : List Int).length ∧
    ([0, 6, 7] : List Int).length = ([5, 6, 7] : List Int).length ∧
    (1 : Int) = ((1 : Nat) : Int) ∧
    (∀ j : Nat, j < 1 → ([0, 6, 7] : List Int)[j]? = some (j : Int)) ∧
    (∀ j : Nat, 1 ≤ j → ([0, 6, 7] : List Int)[j]? = ([5, 6, 7] : List Int)[j]?) ∧
    loopBody { array := [0, 6, 7], counter := 1, i := 1 } =
      some { array := ([0, 6, 7] : List Int).set 1 ((1 : Nat) : Int),
             counter := wrapInt32 (((1 : Nat) : Int) + 1), i := 1 + 1 } :=
  ⟨(loop_invariant [5, 6, 7]).1, by decide, by decide,
   (loop_invariant [5, 6, 7]).2 { array := [0, 6, 7], counter := 1, i := 1 }
     (by decide) (by decide)⟩

/-- C7 as stated fails: on a vector of `2^31 + 1` elements the iteration with
index `2^31` starts with the counter at `-2^31`, not at the index. -/
theorem loop_invariant_counterexample :
    (∃ s ∈ iterations (List.replicate 2147483649 (0 : Int)),
      s.i = 2147483648 ∧ s.counter = -2147483648) ∧
    ¬ (∀ s ∈ iterations (List.replicate 2147483649 (0 : Int)), s.counter = (s.i : Int)) := by
  obtain ⟨s, hs, hsi, hinv⟩ := iterations_at (List.replicate 2147483649 (0 : Int)) 2147483648 (by
    rw [List.length_replicate]
    decide)
  have hc : s.counter = -2147483648 := by
    rw [hinv.2.2.1, hsi]
    decide
  refine ⟨⟨s, hs, hsi, hc⟩, ?_⟩
  intro hall
  have h1 := hall s hs
  rw [hc, hsi] at h1
  exact absurd h1 (by decide)

end Hello
